import Mathlib

/-!
# A shallow embedding of the cogni dependency-graph computation manager

This file embeds the dependency-resolution and memoization core of the
repository: the synchronous evaluator (`cogni` in the unnamed source file,
the module header calls it `cogni` version 1.0.2) and the asynchronous
evaluator (`src/async.ts`, module `cogniAsync`).

Modelling decisions, each justified against the source:

* JavaScript objects used as result caches (`results`) are modelled as
  association lists `List (String × V)` read through `lookupA`, which returns
  the binding introduced last for a key.  A JS property assignment
  `results[key] = v` is modelled by consing `(key, v)`; this has the same
  lookup and key-presence semantics as overwriting the property.
* The registry `fnMap : Map` is also an association list.  The source only
  ever calls `fnMap.has`, `fnMap.get` and `fnMap.set` (never iteration), and
  `define` refuses duplicate keys, so consing a fresh key onto the front is
  observationally identical to `Map.set`.
* The truthiness test `if (results[key])` is modelled by `truthyLookup` with
  an explicit truthiness function `truthy : V → Bool` on the value type
  (JS: `0`, `""`, `false`, `undefined`, … are falsy).  A missing property
  reads as `undefined`, which is falsy, hence `none ↦ miss`.
* A compute function may throw; it is modelled as
  `P → Cache V → Except EvalErr V`.  `await` of an immediately-awaited
  promise collapses to the value, so the async evaluator — which awaits every
  promise at its creation point and therefore admits no interleaving inside
  one top-level call — is a sequential function as well.
* The source's `wrap(fn, parentKeys)` builds, at `define` time, a closure
  that first runs `getMany(parentKeys, param, results)` and then applies
  `fn` to its result.  Storing closures that recursively invoke the evaluator
  cannot be shallowly embedded, so a `Node` stores the raw function together
  with `deps : Option (List String)` (`none` = no `parentKeys` argument,
  i.e. the unwrapped branch of `define`), and the evaluator's
  dependency branch performs exactly the wrapped closure's body.
* Evaluation is indexed by `fuel` (a bound on the depth of nested `get`
  calls); `none` means the bound was exhausted.  Theorem `C9`
  proves that for registries built by successful `define` calls the fuel
  `reg.length + 1` is always sufficient, which is the termination claim.
* Every invocation of a node's underlying compute function is recorded (in
  order) in a trace `List String`, so that theorems can speak about how many
  times and in which order compute functions run.
-/

namespace Cogni

/-- Errors of the evaluator.  The source throws plain `Error`s; the spec's
taxonomy is by kind.  `thrown msg` is an error raised by a user compute
function, `keyNotFound k` is the source's `Key "k" not found!`, and
`failedResolve k e` is the async resolver's
`Failed to resolve dependencies for key "k": e`. -/
inductive EvalErr where
  | thrown (msg : String)
  | keyNotFound (k : String)
  | failedResolve (k : String) (inner : EvalErr)
  deriving DecidableEq

/-- Errors of `define`: `Key "k" already exists!` and
`Key "k" not found!` (an unknown dependency). -/
inductive DefErr where
  | keyExists (k : String)
  | keyNotFound (k : String)
  deriving DecidableEq

/-- Whether an error's message text names the key `k`.  `keyNotFound` and
`failedResolve` messages interpolate the key; a `failedResolve` message also
interpolates the stringified inner error, hence the recursion. -/
def mentionsKey : EvalErr → String → Bool
  | .thrown _, _ => false
  | .keyNotFound k', k => k' == k
  | .failedResolve k' e, k => k' == k || mentionsKey e k

/-- A JS object with string keys, as an association list; later bindings
shadow earlier ones. -/
abbrev Cache (V : Type) := List (String × V)

/-- Property read on an association list (first binding wins, matching
shadowing-by-cons). -/
def lookupA {β : Type _} : List (String × β) → String → Option β
  | [], _ => none
  | (k', b) :: rest, k => if k' = k then some b else lookupA rest k

/-- `Map.has` / `key in obj`: key presence, regardless of the value. -/
def containsKey {β : Type _} (l : List (String × β)) (k : String) : Bool :=
  (lookupA l k).isSome

/-- The source's cache-hit test `if (results[key])`: the property value must
be present *and* truthy.  Returns the cached value on a hit. -/
def truthyLookup {V : Type} (truthy : V → Bool) (c : Cache V) (k : String) : Option V :=
  match lookupA c k with
  | some v => if truthy v then some v else none
  | none => none

/-- A registered node: its declared dependencies (`none` when `define` was
called without a `parentKeys` argument) and its compute function. -/
structure Node (V P : Type) where
  deps : Option (List String)
  fn : P → Cache V → Except EvalErr V

/-- The registry `fnMap`. -/
abbrev Registry (V P : Type) := List (String × Node V P)

/-- `define(key, fn, parentKeys?)` (identical in the sync and async source):
throw `Key already exists` if the key is present; then throw
`Key not found` at the first declared dependency that is absent; otherwise
insert the node.  (`parentKeys ? wrap(fn, parentKeys) : fn` in the source:
an `undefined` `parentKeys` stores the bare function; we record that as
`deps = none`.) -/
def define {V P : Type} (reg : Registry V P) (key : String)
    (fn : P → Cache V → Except EvalErr V) (parentKeys : Option (List String)) :
    Except DefErr (Registry V P) :=
  if containsKey reg key then .error (.keyExists key)
  else
    match parentKeys with
    | none => .ok ((key, ⟨none, fn⟩) :: reg)
    | some ds =>
      match ds.find? (fun d => !containsKey reg d) with
      | some d => .error (.keyNotFound d)
      | none => .ok ((key, ⟨some ds, fn⟩) :: reg)

/-- One `define` step per list entry, in order. -/
structure DefOp (V P : Type) where
  key : String
  fn : P → Cache V → Except EvalErr V
  parentKeys : Option (List String)

/-- Fold a sequence of `define` calls over a starting registry, stopping at
the first failure (the thrown error aborts the construction). -/
def buildFrom {V P : Type} (reg : Registry V P) : List (DefOp V P) → Except DefErr (Registry V P)
  | [] => .ok reg
  | op :: ops =>
    match define reg op.key op.fn op.parentKeys with
    | .error e => .error e
    | .ok reg' => buildFrom reg' ops

/-- A registry built from scratch by a sequence of `define` calls. -/
def buildRegistry {V P : Type} (ops : List (DefOp V P)) : Except DefErr (Registry V P) :=
  buildFrom [] ops

/-- The body of the synchronous `getMany`'s `reduce`, abstracted over the
`get` call it makes:
`keys.reduce((acc, key) => ((acc[key] = get(key, param, results)), acc), results)`.
`acc` and `results` are the same object, so the state is a single cache.
An exception from `get` aborts the reduce and propagates.  The result value
of `getMany` is the cache itself. -/
def getManyF {V : Type}
    (g : String → Cache V → List String → Option (Except EvalErr V × Cache V × List String)) :
    List String → Cache V → List String →
    Option (Except EvalErr Unit × Cache V × List String)
  | [], c, tr => some (.ok (), c, tr)
  | k :: ks, c, tr =>
    match g k c tr with
    | none => none
    | some (.error e, c', tr') => some (.error e, c', tr')
    | some (.ok v, c', tr') => getManyF g ks ((k, v) :: c') tr'

/-- The synchronous `get(key, param, results)`.  Steps, in source order:
cache hit when `results[key]` is truthy; `Key not found` when the registry
lacks the key; otherwise run the stored function — for a node registered
with dependencies that stored function is `wrap(fn, parentKeys)`, whose body
is `fn(param, getMany(parentKeys, param, results))`, inlined here — and
assign `results[key]` on success.  `fuel` bounds the nesting depth of `get`
calls; each invocation of an underlying user function appends its key to
the trace. -/
def get {V P : Type} (truthy : V → Bool) :
    Nat → Registry V P → String → P → Cache V → List String →
    Option (Except EvalErr V × Cache V × List String)
  | 0, _, _, _, _, _ => none
  | fuel + 1, reg, key, param, results, tr =>
    match truthyLookup truthy results key with
    | some v => some (.ok v, results, tr)
    | none =>
      match lookupA reg key with
      | none => some (.error (.keyNotFound key), results, tr)
      | some node =>
        match node.deps with
        | none =>
          match node.fn param results with
          | .error e => some (.error e, results, tr ++ [key])
          | .ok v => some (.ok v, (key, v) :: results, tr ++ [key])
        | some ds =>
          match getManyF (fun k c t => get truthy fuel reg k param c t) ds results tr with
          | none => none
          | some (.error e, c', tr') => some (.error e, c', tr')
          | some (.ok _, c', tr') =>
            match node.fn param c' with
            | .error e => some (.error e, c', tr' ++ [key])
            | .ok v => some (.ok v, (key, v) :: c', tr' ++ [key])

/-- The synchronous `getMany(keys, param, results)`. -/
def getMany {V P : Type} (truthy : V → Bool) (fuel : Nat) (reg : Registry V P)
    (keys : List String) (param : P) (results : Cache V) (tr : List String) :
    Option (Except EvalErr Unit × Cache V × List String) :=
  getManyF (fun k c t => get truthy fuel reg k param c t) keys results tr

end Cogni

namespace CogniAsync

open Cogni

/-- `asyncDependencyResolver(keys, param, results)` from `src/async.ts`,
abstracted over the `get` call it makes.  Per key, in order: skip when
`results[key]` is already truthy; otherwise `results[key] = await get(...)`,
and on failure wrap as
`Failed to resolve dependencies for key "key": error`. -/
def resolverF {V : Type} (truthy : V → Bool)
    (g : String → Cache V → List String → Option (Except EvalErr V × Cache V × List String)) :
    List String → Cache V → List String →
    Option (Except EvalErr Unit × Cache V × List String)
  | [], c, tr => some (.ok (), c, tr)
  | k :: ks, c, tr =>
    match truthyLookup truthy c k with
    | some _ => resolverF truthy g ks c tr
    | none =>
      match g k c tr with
      | none => none
      | some (.error e, c', tr') => some (.error (.failedResolve k e), c', tr')
      | some (.ok v, c', tr') => resolverF truthy g ks ((k, v) :: c') tr'

/-- The asynchronous `get`, identical to the synchronous one except that the
dependency branch (the stored `wrap`ped closure) awaits
`getMany = asyncDependencyResolver`. -/
def get {V P : Type} (truthy : V → Bool) :
    Nat → Registry V P → String → P → Cache V → List String →
    Option (Except EvalErr V × Cache V × List String)
  | 0, _, _, _, _, _ => none
  | fuel + 1, reg, key, param, results, tr =>
    match truthyLookup truthy results key with
    | some v => some (.ok v, results, tr)
    | none =>
      match lookupA reg key with
      | none => some (.error (.keyNotFound key), results, tr)
      | some node =>
        match node.deps with
        | none =>
          match node.fn param results with
          | .error e => some (.error e, results, tr ++ [key])
          | .ok v => some (.ok v, (key, v) :: results, tr ++ [key])
        | some ds =>
          match resolverF truthy (fun k c t => get truthy fuel reg k param c t) ds results tr with
          | none => none
          | some (.error e, c', tr') => some (.error e, c', tr')
          | some (.ok _, c', tr') =>
            match node.fn param c' with
            | .error e => some (.error e, c', tr' ++ [key])
            | .ok v => some (.ok v, (key, v) :: c', tr' ++ [key])

/-- The asynchronous `getMany`: `await asyncDependencyResolver(keys, param, results)`. -/
def getMany {V P : Type} (truthy : V → Bool) (fuel : Nat) (reg : Registry V P)
    (keys : List String) (param : P) (results : Cache V) (tr : List String) :
    Option (Except EvalErr Unit × Cache V × List String) :=
  resolverF truthy (fun k c t => get truthy fuel reg k param c t) keys results tr

end CogniAsync

namespace Cogni

/-- JS truthiness on numbers: `0` is falsy, everything else truthy
(`NaN` has no counterpart in `Int`). -/
def truthyInt : Int → Bool := fun v => v != 0

/-- How many times key `k` occurs in a trace. -/
def countK (k : String) : List String → Nat
  | [] => 0
  | x :: xs => (if x = k then 1 else 0) + countK k xs

/-- Definition-time rank of a key: `1` for the earliest-defined node, up to
`reg.length` for the newest (registries are built by consing the newest
definition in front); `0` for a key that is not registered. -/
def rank {V P : Type} : Registry V P → String → Nat
  | [], _ => 0
  | (k', _) :: reg, k => if k' = k then reg.length + 1 else rank reg k

/-- Registries reachable by successful `define` calls: every node's key is
fresh and its declared dependencies are keys already present (i.e. defined
strictly earlier). -/
inductive WF {V P : Type} : Registry V P → Prop
  | nil : WF []
  | cons {reg : Registry V P} {k : String} {node : Node V P} :
      WF reg → containsKey reg k = false →
      (∀ ds, node.deps = some ds → ∀ d ∈ ds, containsKey reg d = true) →
      WF ((k, node) :: reg)

/-- Direct dependency: the node registered under `a` declares `b`. -/
def dependsOn {V P : Type} (reg : Registry V P) (a b : String) : Prop :=
  ∃ node ds, lookupA reg a = some node ∧ node.deps = some ds ∧ b ∈ ds

/-! ### Concrete node graphs used in the theorems (values are `Int`,
the parameter bag is collapsed to a single `Int`) -/

/-- `dep` computes the falsy value `0`; `child1` and `child2` both declare
`dep` as their single dependency.  (Definition order: `dep`, `child1`,
`child2`; the newest definition is the head.) -/
def regShared0 : Registry Int Int :=
  [("child2", ⟨some ["dep"], fun _ _ => .ok 2⟩),
   ("child1", ⟨some ["dep"], fun _ _ => .ok 1⟩),
   ("dep", ⟨none, fun _ _ => .ok 0⟩)]

/-- Same graph, but `dep` computes the truthy value `7`. -/
def regShared7 : Registry Int Int :=
  [("child2", ⟨some ["dep"], fun _ _ => .ok 2⟩),
   ("child1", ⟨some ["dep"], fun _ _ => .ok 1⟩),
   ("dep", ⟨none, fun _ _ => .ok 7⟩)]

/-- A single node `zero` whose computed value is the falsy `0`. -/
def regZero : Registry Int Int := [("zero", ⟨none, fun _ _ => .ok 0⟩)]

/-- `child` depends on `parent`. -/
def regParentChild : Registry Int Int :=
  [("child", ⟨some ["parent"], fun _ _ => .ok 2⟩),
   ("parent", ⟨none, fun _ _ => .ok 1⟩)]

/-- The spec's `getMany` example: `double = value*2`, `square = value*value`,
no dependencies; the parameter is `value`. -/
def regDoubleSquare : Registry Int Int :=
  [("square", ⟨none, fun v _ => .ok (v * v)⟩),
   ("double", ⟨none, fun v _ => .ok (v * 2)⟩)]

/-- `c` depends on `a` (computes the truthy `1`) and `b` (throws `boom`). -/
def regFailTruthy : Registry Int Int :=
  [("c", ⟨some ["a", "b"], fun _ _ => .ok 3⟩),
   ("b", ⟨none, fun _ _ => .error (.thrown "boom")⟩),
   ("a", ⟨none, fun _ _ => .ok 1⟩)]

/-- Same graph, but `a` computes the falsy `0`. -/
def regFailFalsy : Registry Int Int :=
  [("c", ⟨some ["a", "b"], fun _ _ => .ok 3⟩),
   ("b", ⟨none, fun _ _ => .error (.thrown "boom")⟩),
   ("a", ⟨none, fun _ _ => .ok 0⟩)]

/-- The spec's async-ordering graph, generic in the three compute functions:
`first` and `second` are independent, `combined` depends on
`["first", "second"]`. -/
def regFirstSecond {V P : Type} (f1 f2 fc : P → Cache V → V) : Registry V P :=
  [("combined", ⟨some ["first", "second"], fun p c => .ok (fc p c)⟩),
   ("second", ⟨none, fun p c => .ok (f2 p c)⟩),
   ("first", ⟨none, fun p c => .ok (f1 p c)⟩)]

/-- Async failure-wrapping graph: `first` throws `boom`, `second` is fine,
`combined` depends on both. -/
def regAsyncFail : Registry Int Int :=
  [("combined", ⟨some ["first", "second"], fun _ _ => .ok 3⟩),
   ("second", ⟨none, fun _ _ => .ok 2⟩),
   ("first", ⟨none, fun _ _ => .error (.thrown "boom")⟩)]

/-- `snoop` declares only `a` as a dependency, but its compute function reads
the key `unrelated` from its `parents` argument. -/
def regSnoop : Registry Int Int :=
  [("snoop", ⟨some ["a"], fun _ c => .ok ((lookupA c "unrelated").getD 99)⟩),
   ("a", ⟨none, fun _ _ => .ok 5⟩)]

/-- A `define` sequence for the termination claim: `p`, then `c1` depending
on `p`, then `r` depending on `c1` and `p`. -/
def opsChain : List (DefOp Int Int) :=
  [⟨"p", fun v _ => .ok (v * 2), none⟩,
   ⟨"c1", fun _ c => .ok ((lookupA c "p").getD 0 + 1), some ["p"]⟩,
   ⟨"r", fun _ c => .ok ((lookupA c "c1").getD 0 * (lookupA c "p").getD 0), some ["c1", "p"]⟩]

/-! ### Association-list and trace lemmas -/

theorem containsKey_cons {β : Type _} {l : List (String × β)} {k0 : String} (k : String) (v : β)
    (h : containsKey l k0 = true) : containsKey ((k, v) :: l) k0 = true := by
  by_cases hk : k = k0
  · simp [containsKey, lookupA, hk]
  · simp only [containsKey, lookupA, if_neg hk]
    exact h

theorem lookupA_cons_ne {β : Type _} {l : List (String × β)} {k0 k : String} (v : β)
    (h : ¬ k = k0) : lookupA ((k, v) :: l) k0 = lookupA l k0 := by
  simp [lookupA, h]

theorem countK_append (k : String) (l1 l2 : List String) :
    countK k (l1 ++ l2) = countK k l1 + countK k l2 := by
  induction l1 with
  | nil => simp [countK]
  | cons x xs ih => simp [countK, ih]; omega

theorem countK_snoc_ne (k0 k : String) (l : List String) (h : ¬ k = k0) :
    countK k0 (l ++ [k]) = countK k0 l := by
  simp [countK_append, countK, h]

/-- If the cache holds a truthy value for `k`, the cache-hit test finds it. -/
theorem truthyLookup_of_lookup {V : Type} (truthy : V → Bool) {c : Cache V} {k : String} {w : V}
    (h : lookupA c k = some w) (hw : truthy w = true) : truthyLookup truthy c k = some w := by
  simp [truthyLookup, h, hw]

/-! ### Presence monotonicity: evaluation only ever adds cache entries -/

theorem getManyF_mono {V : Type}
    {g : String → Cache V → List String → Option (Except EvalErr V × Cache V × List String)}
    (hg : ∀ k c tr r c' tr', g k c tr = some (r, c', tr') →
      ∀ k0, containsKey c k0 = true → containsKey c' k0 = true) :
    ∀ (ks : List String) (c : Cache V) (tr : List String) r c' tr',
      getManyF g ks c tr = some (r, c', tr') →
      ∀ k0, containsKey c k0 = true → containsKey c' k0 = true := by
  intro ks
  induction ks with
  | nil =>
    intro c tr r c' tr' h k0 hk0
    simp only [getManyF, Option.some.injEq, Prod.mk.injEq] at h
    obtain ⟨-, hc, -⟩ := h
    exact hc ▸ hk0
  | cons k ks ih =>
    intro c tr r c' tr' h k0 hk0
    simp only [getManyF] at h
    split at h
    · exact Option.noConfusion h
    · next e c2 tr2 heq =>
      simp only [Option.some.injEq, Prod.mk.injEq] at h
      obtain ⟨-, hc, -⟩ := h
      exact hc ▸ hg _ _ _ _ _ _ heq k0 hk0
    · next v c2 tr2 heq =>
      exact ih _ _ _ _ _ h k0 (containsKey_cons k v (hg _ _ _ _ _ _ heq k0 hk0))

theorem get_mono {V P : Type} (truthy : V → Bool) :
    ∀ (fuel : Nat) (reg : Registry V P) (k : String) (p : P) (c : Cache V) (tr : List String)
      (r : Except EvalErr V) (c' : Cache V) (tr' : List String),
      get truthy fuel reg k p c tr = some (r, c', tr') →
      ∀ k0, containsKey c k0 = true → containsKey c' k0 = true := by
  intro fuel
  induction fuel with
  | zero => intro reg k p c tr r c' tr' h; exact Option.noConfusion h
  | succ n ih =>
    intro reg k p c tr r c' tr' h k0 hk0
    simp only [get] at h
    split at h
    · simp only [Option.some.injEq, Prod.mk.injEq] at h
      obtain ⟨-, hc, -⟩ := h
      exact hc ▸ hk0
    · split at h
      · simp only [Option.some.injEq, Prod.mk.injEq] at h
        obtain ⟨-, hc, -⟩ := h
        exact hc ▸ hk0
      · next node heqn =>
        split at h
        · split at h
          · simp only [Option.some.injEq, Prod.mk.injEq] at h
            obtain ⟨-, hc, -⟩ := h
            exact hc ▸ hk0
          · next v heqf =>
            simp only [Option.some.injEq, Prod.mk.injEq] at h
            obtain ⟨-, hc, -⟩ := h
            exact hc ▸ containsKey_cons _ v hk0
        · next ds heqd =>
          split at h
          · exact Option.noConfusion h
          · next e c2 tr2 heqm =>
            simp only [Option.some.injEq, Prod.mk.injEq] at h
            obtain ⟨-, hc, -⟩ := h
            have := getManyF_mono (fun k c tr r c' tr' hh => ih reg k p c tr r c' tr' hh) _ _ _ _ _ _ heqm k0 hk0
            exact hc ▸ this
          · next u c2 tr2 heqm =>
            have hc2 := getManyF_mono (fun k c tr r c' tr' hh => ih reg k p c tr r c' tr' hh) _ _ _ _ _ _ heqm k0 hk0
            split at h
            · simp only [Option.some.injEq, Prod.mk.injEq] at h
              obtain ⟨-, hc, -⟩ := h
              exact hc ▸ hc2
            · next v heqf =>
              simp only [Option.some.injEq, Prod.mk.injEq] at h
              obtain ⟨-, hc, -⟩ := h
              exact hc ▸ containsKey_cons _ v hc2

/-! ### Truthy frame: a cache entry that is already truthy survives any
evaluation unchanged, and its node's compute function is never invoked
again (its key count in the trace does not grow). -/

theorem getManyF_frame {V : Type} (k0 : String) (w : V)
    {g : String → Cache V → List String → Option (Except EvalErr V × Cache V × List String)}
    (hg : ∀ k c tr res c' tr', g k c tr = some (res, c', tr') → lookupA c k0 = some w →
      lookupA c' k0 = some w ∧ countK k0 tr' = countK k0 tr ∧
        ∀ v, res = .ok v → k = k0 → v = w) :
    ∀ (ks : List String) (c : Cache V) (tr : List String) res c' tr',
      getManyF g ks c tr = some (res, c', tr') → lookupA c k0 = some w →
      lookupA c' k0 = some w ∧ countK k0 tr' = countK k0 tr := by
  intro ks
  induction ks with
  | nil =>
    intro c tr res c' tr' h hc
    simp only [getManyF, Option.some.injEq, Prod.mk.injEq] at h
    obtain ⟨-, h2, h3⟩ := h
    exact ⟨h2 ▸ hc, h3 ▸ rfl⟩
  | cons k ks ih =>
    intro c tr res c' tr' h hc
    simp only [getManyF] at h
    split at h
    · exact Option.noConfusion h
    · next e c2 tr2 heq =>
      simp only [Option.some.injEq, Prod.mk.injEq] at h
      obtain ⟨-, h2, h3⟩ := h
      obtain ⟨g1, g2, -⟩ := hg _ _ _ _ _ _ heq hc
      exact ⟨h2 ▸ g1, h3 ▸ g2⟩
    · next v c2 tr2 heq =>
      obtain ⟨g1, g2, g3⟩ := hg _ _ _ _ _ _ heq hc
      have hins : lookupA ((k, v) :: c2) k0 = some w := by
        by_cases hk : k = k0
        · have hv := g3 v rfl hk
          simp [lookupA, hk, hv]
        · rw [lookupA_cons_ne v hk]; exact g1
      obtain ⟨i1, i2⟩ := ih _ _ _ _ _ h hins
      exact ⟨i1, by omega⟩

theorem get_frame {V P : Type} (truthy : V → Bool) (k0 : String) (w : V)
    (hw : truthy w = true) :
    ∀ (fuel : Nat) (reg : Registry V P) (k : String) (p : P) (c : Cache V) (tr : List String)
      res (c' : Cache V) (tr' : List String),
      get truthy fuel reg k p c tr = some (res, c', tr') → lookupA c k0 = some w →
      lookupA c' k0 = some w ∧ countK k0 tr' = countK k0 tr ∧
        ∀ v, res = .ok v → k = k0 → v = w := by
  intro fuel
  induction fuel with
  | zero => intro reg k p c tr res c' tr' h; exact Option.noConfusion h
  | succ n ih =>
    intro reg k p c tr res c' tr' h hc
    simp only [get] at h
    split at h
    · next v heq =>
      simp only [Option.some.injEq, Prod.mk.injEq] at h
      obtain ⟨h1, h2, h3⟩ := h
      refine ⟨h2 ▸ hc, h3 ▸ rfl, ?_⟩
      intro v' hres hk
      subst hk
      rw [truthyLookup_of_lookup truthy hc hw] at heq
      cases heq
      cases h1 ▸ hres
      rfl
    · next heq =>
      have hne : ¬ k = k0 := by
        intro hk
        subst hk
        rw [truthyLookup_of_lookup truthy hc hw] at heq
        cases heq
      split at h
      · simp only [Option.some.injEq, Prod.mk.injEq] at h
        obtain ⟨h1, h2, h3⟩ := h
        refine ⟨h2 ▸ hc, h3 ▸ rfl, ?_⟩
        intro v' hres hk
        exact absurd hk hne
      · next node heqn =>
        split at h
        · split at h
          · simp only [Option.some.injEq, Prod.mk.injEq] at h
            obtain ⟨h1, h2, h3⟩ := h
            exact ⟨h2 ▸ hc, h3 ▸ countK_snoc_ne k0 k tr hne, fun v' _ hk => absurd hk hne⟩
          · next v heqf =>
            simp only [Option.some.injEq, Prod.mk.injEq] at h
            obtain ⟨h1, h2, h3⟩ := h
            refine ⟨h2 ▸ (lookupA_cons_ne v hne).trans hc, h3 ▸ countK_snoc_ne k0 k tr hne,
              fun v' _ hk => absurd hk hne⟩
        · next ds heqd =>
          split at h
          · exact Option.noConfusion h
          · next e c2 tr2 heqm =>
            simp only [Option.some.injEq, Prod.mk.injEq] at h
            obtain ⟨h1, h2, h3⟩ := h
            obtain ⟨m1, m2⟩ := getManyF_frame k0 w
              (fun k c tr res c' tr' hh => ih reg k p c tr res c' tr' hh) _ _ _ _ _ _ heqm hc
            exact ⟨h2 ▸ m1, h3 ▸ m2, fun v' _ hk => absurd hk hne⟩
          · next u c2 tr2 heqm =>
            obtain ⟨m1, m2⟩ := getManyF_frame k0 w
              (fun k c tr res c' tr' hh => ih reg k p c tr res c' tr' hh) _ _ _ _ _ _ heqm hc
            split at h
            · simp only [Option.some.injEq, Prod.mk.injEq] at h
              obtain ⟨h1, h2, h3⟩ := h
              refine ⟨h2 ▸ m1, ?_, fun v' _ hk => absurd hk hne⟩
              rw [← h3, countK_snoc_ne k0 k tr2 hne]
              exact m2
            · next v heqf =>
              simp only [Option.some.injEq, Prod.mk.injEq] at h
              obtain ⟨h1, h2, h3⟩ := h
              refine ⟨h2 ▸ (lookupA_cons_ne v hne).trans m1, ?_, fun v' _ hk => absurd hk hne⟩
              rw [← h3, countK_snoc_ne k0 k tr2 hne]
              exact m2


/-! ### Rank and well-formedness: definition order makes dependency ranks
strictly decrease, which yields cycle-freedom and termination -/

theorem rank_le_length {V P : Type} : ∀ (reg : Registry V P) (k : String), rank reg k ≤ reg.length := by
  intro reg
  induction reg with
  | nil => intro k; simp [rank]
  | cons e reg ih =>
    intro k
    obtain ⟨k', n⟩ := e
    by_cases h : k' = k
    · simp [rank, h]
    · simp only [rank, if_neg h, List.length_cons]
      exact Nat.le_succ_of_le (ih k)

theorem rank_cons_ne {V P : Type} (k' : String) (n : Node V P) (reg : Registry V P) (k : String)
    (h : ¬ k' = k) : rank ((k', n) :: reg) k = rank reg k := by
  simp [rank, h]

theorem wf_deps_contains {V P : Type} {reg : Registry V P} (h : WF reg) :
    ∀ a node ds d, lookupA reg a = some node → node.deps = some ds → d ∈ ds →
      containsKey reg d = true := by
  induction h with
  | nil => intro a node ds d ha _ _; exact Option.noConfusion ha
  | @cons reg k node hwf hfresh hdeps ih =>
    intro a nd ds d ha hds hd
    by_cases hk : k = a
    · subst hk
      simp [lookupA] at ha
      subst ha
      exact containsKey_cons _ _ (hdeps ds hds d hd)
    · simp only [lookupA, if_neg hk] at ha
      exact containsKey_cons _ _ (ih a nd ds d ha hds hd)

theorem wf_rank_lt {V P : Type} {reg : Registry V P} (h : WF reg) :
    ∀ a node ds d, lookupA reg a = some node → node.deps = some ds → d ∈ ds →
      rank reg d < rank reg a := by
  induction h with
  | nil => intro a node ds d ha _ _; exact Option.noConfusion ha
  | @cons reg k node hwf hfresh hdeps ih =>
    intro a nd ds d ha hds hd
    by_cases hk : k = a
    · subst hk
      simp [lookupA] at ha
      subst ha
      have hcont : containsKey reg d = true := hdeps ds hds d hd
      have hdk : ¬ k = d := by
        intro hkd
        rw [hkd] at hfresh
        rw [hfresh] at hcont
        exact Bool.noConfusion hcont
      rw [rank_cons_ne k _ reg d hdk]
      simp only [rank, if_pos rfl, if_true]
      have := rank_le_length reg d
      omega
    · simp only [lookupA, if_neg hk] at ha
      have hlt := ih a nd ds d ha hds hd
      have hcont := wf_deps_contains hwf a nd ds d ha hds hd
      have hdk : ¬ k = d := by
        intro hkd
        rw [hkd] at hfresh
        rw [hfresh] at hcont
        exact Bool.noConfusion hcont
      rw [rank_cons_ne k _ reg d hdk, rank_cons_ne k _ reg a hk]
      exact hlt

theorem dependsOn_rank_lt {V P : Type} {reg : Registry V P} (hwf : WF reg) {a b : String}
    (h : dependsOn reg a b) : rank reg b < rank reg a := by
  obtain ⟨node, ds, h1, h2, h3⟩ := h
  exact wf_rank_lt hwf a node ds b h1 h2 h3

theorem transGen_rank_lt {V P : Type} {reg : Registry V P} (hwf : WF reg) {a b : String}
    (h : Relation.TransGen (dependsOn reg) a b) : rank reg b < rank reg a := by
  induction h with
  | single h1 => exact dependsOn_rank_lt hwf h1
  | tail _ h2 ih => exact Nat.lt_trans (dependsOn_rank_lt hwf h2) ih

/-! ### Termination with fuel `reg.length + 1` -/

theorem getManyF_isSome {V : Type}
    {g : String → Cache V → List String → Option (Except EvalErr V × Cache V × List String)}
    (ks : List String)
    (hg : ∀ k ∈ ks, ∀ c tr, (g k c tr).isSome = true) :
    ∀ (c : Cache V) (tr : List String), (getManyF g ks c tr).isSome = true := by
  induction ks with
  | nil => intro c tr; simp [getManyF]
  | cons k ks ih =>
    intro c tr
    obtain ⟨⟨res, c2, tr2⟩, heq⟩ := Option.isSome_iff_exists.mp (hg k (by simp) c tr)
    simp only [getManyF, heq]
    cases res with
    | error e => simp
    | ok v => exact ih (fun k hk c tr => hg k (by simp [hk]) c tr) _ _

theorem get_isSome {V P : Type} (truthy : V → Bool) {reg : Registry V P} (hwf : WF reg) :
    ∀ (n : Nat) (k : String), rank reg k < n →
      ∀ (p : P) (c : Cache V) (tr : List String), (get truthy n reg k p c tr).isSome = true := by
  intro n
  induction n with
  | zero => intro k h; omega
  | succ m ih =>
    intro k hk p c tr
    simp only [get]
    split
    · simp
    · split
      · simp
      · next node heqn =>
        split
        · split
          · simp
          · simp
        · next ds heqd =>
          have hsub : ∀ d ∈ ds, rank reg d < m := by
            intro d hd
            have hlt := wf_rank_lt hwf k node ds d heqn heqd hd
            omega
          have hms := getManyF_isSome ds (fun d hd c tr => ih d (hsub d hd) p c tr) c tr
          obtain ⟨⟨res, c2, tr2⟩, heqm⟩ := Option.isSome_iff_exists.mp hms
          rw [heqm]
          cases res with
          | error e => simp
          | ok u =>
            split
            · next heqx => exact Option.noConfusion heqx
            · simp
            · split
              · simp
              · simp

theorem resolverF_isSome {V : Type} (truthy : V → Bool)
    {g : String → Cache V → List String → Option (Except EvalErr V × Cache V × List String)}
    (ks : List String)
    (hg : ∀ k ∈ ks, ∀ c tr, (g k c tr).isSome = true) :
    ∀ (c : Cache V) (tr : List String),
      (CogniAsync.resolverF truthy g ks c tr).isSome = true := by
  induction ks with
  | nil => intro c tr; simp [CogniAsync.resolverF]
  | cons k ks ih =>
    intro c tr
    simp only [CogniAsync.resolverF]
    split
    · exact ih (fun k hk c tr => hg k (by simp [hk]) c tr) c tr
    · obtain ⟨⟨res, c2, tr2⟩, heq⟩ := Option.isSome_iff_exists.mp (hg k (by simp) c tr)
      rw [heq]
      cases res with
      | error e => simp
      | ok v => exact ih (fun k hk c tr => hg k (by simp [hk]) c tr) _ _

theorem aget_isSome {V P : Type} (truthy : V → Bool) {reg : Registry V P} (hwf : WF reg) :
    ∀ (n : Nat) (k : String), rank reg k < n →
      ∀ (p : P) (c : Cache V) (tr : List String),
        (CogniAsync.get truthy n reg k p c tr).isSome = true := by
  intro n
  induction n with
  | zero => intro k h; omega
  | succ m ih =>
    intro k hk p c tr
    simp only [CogniAsync.get]
    split
    · simp
    · split
      · simp
      · next node heqn =>
        split
        · split
          · simp
          · simp
        · next ds heqd =>
          have hsub : ∀ d ∈ ds, rank reg d < m := by
            intro d hd
            have hlt := wf_rank_lt hwf k node ds d heqn heqd hd
            omega
          have hms := resolverF_isSome truthy ds (fun d hd c tr => ih d (hsub d hd) p c tr) c tr
          obtain ⟨⟨res, c2, tr2⟩, heqm⟩ := Option.isSome_iff_exists.mp hms
          rw [heqm]
          cases res with
          | error e => simp
          | ok u =>
            split
            · next heqx => exact Option.noConfusion heqx
            · simp
            · split
              · simp
              · simp

/-! ### Every requested key ends up present after a successful `getMany` -/

theorem getManyF_present {V : Type}
    {g : String → Cache V → List String → Option (Except EvalErr V × Cache V × List String)}
    (hg : ∀ k c tr r c' tr', g k c tr = some (r, c', tr') →
      ∀ k0, containsKey c k0 = true → containsKey c' k0 = true) :
    ∀ (ks : List String) (c : Cache V) (tr : List String) (c' : Cache V) (tr' : List String),
      getManyF g ks c tr = some (.ok (), c', tr') →
      ∀ k ∈ ks, containsKey c' k = true := by
  intro ks
  induction ks with
  | nil => intro c tr c' tr' _ k hk; exact absurd hk (List.not_mem_nil k)
  | cons k1 ks ih =>
    intro c tr c' tr' h k hk
    simp only [getManyF] at h
    split at h
    · exact Option.noConfusion h
    · next e c2 tr2 heq =>
      simp only [Option.some.injEq, Prod.mk.injEq] at h
      exact absurd h.1 (by simp)
    · next v c2 tr2 heq =>
      rcases List.mem_cons.mp hk with rfl | hk2
      · exact getManyF_mono hg ks _ _ _ _ _ h k (by simp [containsKey, lookupA])
      · exact ih _ _ _ _ h k hk2

/-! ### Successful `define` sequences produce well-formed registries -/

theorem define_wf {V P : Type} {reg reg' : Registry V P} {k : String}
    {fn : P → Cache V → Except EvalErr V} {ps : Option (List String)} (hwf : WF reg)
    (h : define reg k fn ps = .ok reg') : WF reg' := by
  unfold define at h
  split at h
  · exact Except.noConfusion h
  · next hfresh =>
    have hfalse : containsKey reg k = false := Bool.eq_false_iff.mpr hfresh
    split at h
    · cases h
      exact WF.cons hwf hfalse (fun ds hds => Option.noConfusion hds)
    · split at h
      · exact Except.noConfusion h
      · next hfind =>
        cases h
        refine WF.cons hwf hfalse ?_
        intro ds' hds' d hd
        cases hds'
        have := List.find?_eq_none.mp hfind d hd
        simp only [Bool.not_eq_true', Bool.not_eq_false] at this
        exact this

theorem buildFrom_wf {V P : Type} :
    ∀ (ops : List (DefOp V P)) (reg reg' : Registry V P), WF reg →
      buildFrom reg ops = .ok reg' → WF reg' := by
  intro ops
  induction ops with
  | nil =>
    intro reg reg' hwf h
    simp only [buildFrom, Except.ok.injEq] at h
    exact h ▸ hwf
  | cons op ops ih =>
    intro reg reg' hwf h
    simp only [buildFrom] at h
    split at h
    · exact Except.noConfusion h
    · next reg2 heq => exact ih reg2 reg' (define_wf hwf heq) h

theorem buildRegistry_wf {V P : Type} {ops : List (DefOp V P)} {reg : Registry V P}
    (h : buildRegistry ops = .ok reg) : WF reg :=
  buildFrom_wf ops [] reg WF.nil h


/-- The registry that `buildRegistry opsChain` produces. -/
def regChain : Registry Int Int :=
  [("r", ⟨some ["c1", "p"], fun _ c => .ok ((lookupA c "c1").getD 0 * (lookupA c "p").getD 0)⟩),
   ("c1", ⟨some ["p"], fun _ c => .ok ((lookupA c "p").getD 0 + 1)⟩),
   ("p", ⟨none, fun v _ => .ok (v * 2)⟩)]

/-- Any error produced by the async dependency resolver is a
`failedResolve` wrap naming one of the keys the resolver was asked to
resolve (the failing one). -/
theorem resolverF_error_shape {V : Type} (truthy : V → Bool)
    {g : String → Cache V → List String → Option (Except EvalErr V × Cache V × List String)} :
    ∀ (ks : List String) (c : Cache V) (tr : List String) e c' tr',
      CogniAsync.resolverF truthy g ks c tr = some (.error e, c', tr') →
      ∃ k ∈ ks, ∃ e0, e = .failedResolve k e0 := by
  intro ks
  induction ks with
  | nil =>
    intro c tr e c' tr' h
    simp only [CogniAsync.resolverF, Option.some.injEq, Prod.mk.injEq] at h
    exact absurd h.1 (by simp)
  | cons k ks ih =>
    intro c tr e c' tr' h
    simp only [CogniAsync.resolverF] at h
    split at h
    · obtain ⟨k1, hk1, e0, he0⟩ := ih _ _ _ _ _ h
      exact ⟨k1, List.mem_cons_of_mem k hk1, e0, he0⟩
    · split at h
      · exact Option.noConfusion h
      · next e1 c2 tr2 heq =>
        simp only [Option.some.injEq, Prod.mk.injEq, Except.error.injEq] at h
        obtain ⟨h1, -, -⟩ := h
        exact ⟨k, List.mem_cons_self k ks, e1, h1.symm⟩
      · next v c2 tr2 heq =>
        obtain ⟨k1, hk1, e0, he0⟩ := ih _ _ _ _ _ h
        exact ⟨k1, List.mem_cons_of_mem k hk1, e0, he0⟩

/-! ## The claims -/

/-- **C1** — the claim states the single-evaluation guarantee: in one
`getMany` call over one shared cache, a dependency shared by several
requested nodes has its compute function invoked exactly once, and in
general at most once per cache instance.  The code violates this: the
cache-hit test `if (results[key])` is truthiness-based, so when the shared
dependency `dep` computes the falsy value `0`, requesting
`getMany(["child1", "child2"])` invokes `dep`'s compute function twice
(trace count 2); with a truthy computed value `7` it is invoked once.
The spec itself (§9) flags the truthiness check as a latent bug violating
this very guarantee, so the claim is the intent and the code is the bug. -/
theorem C1_shared_dep_invoked_twice_on_falsy_value :
    (getMany truthyInt 5 regShared0 ["child1", "child2"] 0 [] []).map
        (fun r => countK "dep" r.2.2) = some 2
  ∧ (getMany truthyInt 5 regShared7 ["child1", "child2"] 0 [] []).map
        (fun r => countK "dep" r.2.2) = some 1 :=
  ⟨rfl, rfl⟩

/-- **C2** — the claim states cache hits are decided by key presence, so an
entry holding a defined-but-falsy value (here `0`) is returned without
re-invoking the compute function, in both evaluators.  The code decides
hits by truthiness: with the cache already holding `("zero", 0)` (first
conjunct: the entry is present), both the sync and the async `get`
re-invoke `zero`'s compute function (the invocation trace grows by
`"zero"`) instead of returning the cached entry untouched.  Spec §9 calls
this a latent bug in the source, so the claim is the intent and the code
is the bug. -/
theorem C2_defined_falsy_entry_recomputed :
    lookupA [(("zero" : String), (0 : Int))] "zero" = some 0
  ∧ get truthyInt 3 regZero "zero" 0 [("zero", 0)] []
      = some (.ok 0, [("zero", 0), ("zero", 0)], ["zero"])
  ∧ CogniAsync.get truthyInt 3 regZero "zero" 0 [("zero", 0)] []
      = some (.ok 0, [("zero", 0), ("zero", 0)], ["zero"]) :=
  ⟨rfl, rfl, rfl⟩

/-- **C3, counterexample** — the claim says `getMany` returns a bag
containing *no keys other than the requested ones*.  False: the sync
`getMany` seeds its `reduce` with the shared cache object and returns it,
so requesting only `["child"]` (where `child` depends on `parent`) yields
a bag that also contains the key `"parent"`, which was not requested. -/
theorem C3_cex_getMany_bag_contains_unrequested_key :
    (getMany truthyInt 5 regParentChild ["child"] 0 [] []).map
        (fun r => containsKey r.2.1 "parent") = some true
  ∧ "parent" ∉ (["child"] : List String) :=
  ⟨rfl, by decide⟩

/-- **C3, amended** — `getMany(keys, params, cache)` applies `get` to each
requested key in order against the shared cache and returns that shared
cache: every requested key has an entry in the returned bag, and every
entry of the supplied cache is still present, but the bag is not limited
to the requested keys (it also holds intermediate dependency values).
On the spec's own example (`double = value*2`, `square = value*value`,
`value = 3`) the bag maps `double ↦ 6` and `square ↦ 9`. -/
theorem C3_amended_getMany_bag_is_shared_cache {V P : Type} (truthy : V → Bool)
    (fuel : Nat) (reg : Registry V P) (keys : List String) (p : P) (c : Cache V)
    (tr : List String) (bag : Cache V) (tr' : List String)
    (h : getMany truthy fuel reg keys p c tr = some (.ok (), bag, tr')) :
    (∀ k ∈ keys, containsKey bag k = true)
  ∧ (∀ k0, containsKey c k0 = true → containsKey bag k0 = true)
  ∧ (getMany truthyInt 3 regDoubleSquare ["double", "square"] 3 [] []).map
      (fun r => (lookupA r.2.1 "double", lookupA r.2.1 "square")) = some (some 6, some 9) := by
  unfold getMany at h
  refine ⟨?_, ?_, rfl⟩
  · exact getManyF_present
      (fun k c tr r c' tr' hh => get_mono truthy fuel reg k p c tr r c' tr' hh)
      keys c tr bag tr' h
  · intro k0 hk0
    exact getManyF_mono
      (fun k c tr r c' tr' hh => get_mono truthy fuel reg k p c tr r c' tr' hh)
      keys c tr _ bag tr' h k0 hk0

/-- Witness for `C3_amended_getMany_bag_is_shared_cache` at a concrete
successful `getMany`. -/
theorem C3_amended_witness :
    containsKey [(("child" : String), (2 : Int)), ("child", 2), ("parent", 1), ("parent", 1)]
      "child" = true := by
  have h := C3_amended_getMany_bag_is_shared_cache truthyInt 5 regParentChild ["child"] 0 [] []
    [("child", 2), ("child", 2), ("parent", 1), ("parent", 1)] ["parent", "child"] rfl
  exact h.1 "child" (by decide)


/-- **C4** — `define` fails with the duplicate-key error exactly when the key
is already registered; it fails with an unknown-dependency error exactly
when the key is fresh but some declared dependency is unregistered (the
raised error names the first such dependency, as the source's `forEach`
throws at the first missing one); it succeeds exactly when the key is fresh
and every declared dependency is registered, and then the new node is
inserted under `key` in front of the otherwise-unchanged registry.  Both
checks precede insertion; in this pure embedding a failing `define` returns
only the error, so the caller's registry is untouched by construction. -/
theorem C4_define_characterization {V P : Type} (reg : Registry V P) (k : String)
    (fn : P → Cache V → Except EvalErr V) (ps : Option (List String)) :
    (define reg k fn ps = .error (.keyExists k) ↔ containsKey reg k = true)
  ∧ (∀ d, define reg k fn ps = .error (.keyNotFound d) →
        containsKey reg k = false ∧ ∃ ds, ps = some ds ∧ d ∈ ds ∧ containsKey reg d = false)
  ∧ ((∃ d, define reg k fn ps = .error (.keyNotFound d)) ↔
        containsKey reg k = false ∧ ∃ ds, ps = some ds ∧ ∃ d ∈ ds, containsKey reg d = false)
  ∧ ((∃ reg', define reg k fn ps = .ok reg') ↔
        containsKey reg k = false ∧ ∀ ds, ps = some ds → ∀ d ∈ ds, containsKey reg d = true)
  ∧ (∀ reg', define reg k fn ps = .ok reg' → ∃ node : Node V P, reg' = (k, node) :: reg) := by
  unfold define
  by_cases hk : containsKey reg k = true
  · rw [if_pos hk]
    refine ⟨by simp [hk], ?_, ?_, ?_, ?_⟩
    · intro d hd
      exact absurd hd (by simp)
    · constructor
      · rintro ⟨d, hd⟩
        exact absurd hd (by simp)
      · rintro ⟨hfalse, -⟩
        rw [hk] at hfalse
        exact absurd hfalse (by simp)
    · constructor
      · rintro ⟨reg', hr⟩
        exact absurd hr (by simp)
      · rintro ⟨hfalse, -⟩
        rw [hk] at hfalse
        exact absurd hfalse (by simp)
    · intro reg' hr
      exact absurd hr (by simp)
  · have hkf : containsKey reg k = false := Bool.eq_false_iff.mpr hk
    rw [if_neg hk]
    cases ps with
    | none =>
      refine ⟨by simp [hkf], ?_, ?_, ?_, ?_⟩
      · intro d hd
        exact absurd hd (by simp)
      · constructor
        · rintro ⟨d, hd⟩
          exact absurd hd (by simp)
        · rintro ⟨-, ds, hds, -⟩
          exact Option.noConfusion hds
      · constructor
        · rintro -
          exact ⟨hkf, fun ds h => Option.noConfusion h⟩
        · rintro -
          exact ⟨_, rfl⟩
      · intro reg' hr
        simp only [Except.ok.injEq] at hr
        exact ⟨⟨none, fn⟩, hr.symm⟩
    | some ds =>
      dsimp only
      cases hfind : ds.find? (fun d => !containsKey reg d) with
      | some d0 =>
        have hd0mem : d0 ∈ ds := List.mem_of_find?_eq_some hfind
        have hd0c : containsKey reg d0 = false := by
          have := List.find?_some hfind
          simpa using this
        dsimp only
        refine ⟨by simp [hkf], ?_, ?_, ?_, ?_⟩
        · intro d hd
          simp only [Except.error.injEq, DefErr.keyNotFound.injEq] at hd
          exact ⟨hkf, ds, rfl, hd ▸ hd0mem, hd ▸ hd0c⟩
        · constructor
          · rintro -
            exact ⟨hkf, ds, rfl, d0, hd0mem, hd0c⟩
          · rintro -
            exact ⟨d0, rfl⟩
        · constructor
          · rintro ⟨reg', hr⟩
            exact absurd hr (by simp)
          · rintro ⟨-, hall⟩
            have := hall ds rfl d0 hd0mem
            rw [hd0c] at this
            exact absurd this (by simp)
        · intro reg' hr
          exact absurd hr (by simp)
      | none =>
        have hnone : ∀ d ∈ ds, containsKey reg d = true := by
          intro d hd
          have := List.find?_eq_none.mp hfind d hd
          simpa using this
        dsimp only
        refine ⟨by simp [hkf], ?_, ?_, ?_, ?_⟩
        · intro d hd
          exact absurd hd (by simp)
        · constructor
          · rintro ⟨d, hd⟩
            exact absurd hd (by simp)
          · rintro ⟨-, ds', hds', d, hdmem, hdc⟩
            simp only [Option.some.injEq] at hds'
            subst hds'
            rw [hnone d hdmem] at hdc
            exact absurd hdc (by simp)
        · constructor
          · rintro -
            refine ⟨hkf, fun ds' h' => ?_⟩
            simp only [Option.some.injEq] at h'
            subst h'
            exact hnone
          · rintro -
            exact ⟨_, rfl⟩
        · intro reg' hr
          simp only [Except.ok.injEq] at hr
          exact ⟨⟨some ds, fn⟩, hr.symm⟩

/-- Witness for `C4_define_characterization`: redefining the already-present
key `"x"` fails with the duplicate-key error. -/
theorem C4_witness :
    define [(("x" : String), (⟨none, fun _ _ => .ok 0⟩ : Node Int Int))] "x"
      (fun _ _ => .ok 1) none = .error (.keyExists "x") :=
  (C4_define_characterization
      [("x", ⟨none, fun _ _ => .ok 0⟩)] "x" (fun _ _ => .ok 1) none).1.mpr rfl

/-- **C5, counterexample** — the claim says that for *every* key that is not
registered, `get(key, params, cache)` raises the undefined-node error.
False as stated over all caches: the cache-hit test runs before the
registry lookup, so a caller-supplied cache that already holds a truthy
entry for the unregistered key makes `get` return that value instead of
raising (here `get("neverDefined")` on the empty registry returns `1`). -/
theorem C5_cex_cached_unregistered_key_returns_value :
    get truthyInt 3 ([] : Registry Int Int) "neverDefined" 0 [("neverDefined", 1)] []
      = some (.ok 1, [("neverDefined", 1)], []) :=
  rfl

/-- **C5, amended** — whenever the supplied cache has no truthy entry for an
unregistered key, `get` (sync and async) raises the `Key not found` error,
and `getMany` with such a key first in its list raises it too (the async
`getMany` delivers it wrapped by its resolver, still naming the key); in
particular `get("neverDefined", {})` with a fresh empty cache raises it. -/
theorem C5_amended_unregistered_key_raises {V P : Type} (truthy : V → Bool)
    (reg : Registry V P) (k : String) (p : P) (c : Cache V) (tr : List String)
    (fuel : Nat) (ks : List String)
    (hreg : lookupA reg k = none) (hc : truthyLookup truthy c k = none) :
    get truthy (fuel + 1) reg k p c tr = some (.error (.keyNotFound k), c, tr)
  ∧ CogniAsync.get truthy (fuel + 1) reg k p c tr = some (.error (.keyNotFound k), c, tr)
  ∧ getMany truthy (fuel + 1) reg (k :: ks) p c tr = some (.error (.keyNotFound k), c, tr)
  ∧ CogniAsync.getMany truthy (fuel + 1) reg (k :: ks) p c tr
      = some (.error (.failedResolve k (.keyNotFound k)), c, tr) := by
  have hget : get truthy (fuel + 1) reg k p c tr = some (.error (.keyNotFound k), c, tr) := by
    simp [get, hc, hreg]
  have haget : CogniAsync.get truthy (fuel + 1) reg k p c tr
      = some (.error (.keyNotFound k), c, tr) := by
    simp [CogniAsync.get, hc, hreg]
  refine ⟨hget, haget, ?_, ?_⟩
  · simp [getMany, getManyF, hget]
  · simp [CogniAsync.getMany, CogniAsync.resolverF, hc, haget]

/-- Witness for `C5_amended_unregistered_key_raises`: the spec's own example,
`get("neverDefined", {})` with a fresh empty cache on an empty registry. -/
theorem C5_amended_witness :
    get truthyInt 1 ([] : Registry Int Int) "neverDefined" 0 [] []
      = some (.error (.keyNotFound "neverDefined"), [], [])
  ∧ CogniAsync.get truthyInt 1 ([] : Registry Int Int) "neverDefined" 0 [] []
      = some (.error (.keyNotFound "neverDefined"), [], [])
  ∧ getMany truthyInt 1 ([] : Registry Int Int) ["neverDefined"] 0 [] []
      = some (.error (.keyNotFound "neverDefined"), [], [])
  ∧ CogniAsync.getMany truthyInt 1 ([] : Registry Int Int) ["neverDefined"] 0 [] []
      = some (.error (.failedResolve "neverDefined" (.keyNotFound "neverDefined")), [], []) :=
  C5_amended_unregistered_key_raises truthyInt [] "neverDefined" 0 [] [] 0 [] rfl rfl

/-- **C6, counterexample** — the claim says a retried `get` with the same
cache never re-invokes dependencies that succeeded before the failure.
False when a successful dependency computed a falsy value: with `a ↦ 0`
computed and cached before `b` throws, the retry's truthiness cache check
misses on `a` and invokes `a`'s compute function a second time (its count
in the accumulated trace rises to 2). -/
theorem C6_cex_falsy_dep_reinvoked_on_retry :
    get truthyInt 5 regFailFalsy "c" 0 [] []
      = some (.error (.thrown "boom"), [("a", 0), ("a", 0)], ["a", "b"])
  ∧ (get truthyInt 5 regFailFalsy "c" 0 [("a", 0), ("a", 0)] ["a", "b"]).map
      (fun r => countK "a" r.2.2) = some 2 :=
  ⟨rfl, rfl⟩

/-- **C6, amended** — if a compute function throws, the sync `get` returns
that error to the top-level caller (no partial value), and the cache is
never rolled back: every entry present before the call is still present
after it (first conjunct), and an entry whose value is truthy survives with
the same value and its node is not re-invoked (second conjunct).  Hence a
retried `get` with the same cache re-invokes no already-successful
dependency *whose cached value is truthy*; a falsy cached value is
recomputed (see the counterexample).  Concretely: with `a ↦ 1` cached and
`b` throwing, `get "c"` propagates `boom`, keeps `a`'s entry, leaves no
entries for `b` or `c`, and the retry does not re-invoke `a`. -/
theorem C6_amended_failure_keeps_cache_truthy_deps_not_reinvoked :
    (∀ {V P : Type} (truthy : V → Bool) (fuel : Nat) (reg : Registry V P) k p
        (c : Cache V) tr res c' tr',
        get truthy fuel reg k p c tr = some (res, c', tr') →
        (∀ k0, containsKey c k0 = true → containsKey c' k0 = true)
      ∧ (∀ k0 w, lookupA c k0 = some w → truthy w = true →
            lookupA c' k0 = some w ∧ countK k0 tr' = countK k0 tr))
  ∧ get truthyInt 5 regFailTruthy "c" 0 [] []
      = some (.error (.thrown "boom"), [("a", 1), ("a", 1)], ["a", "b"])
  ∧ containsKey [(("a" : String), (1 : Int)), ("a", 1)] "b" = false
  ∧ containsKey [(("a" : String), (1 : Int)), ("a", 1)] "c" = false
  ∧ (get truthyInt 5 regFailTruthy "c" 0 [("a", 1), ("a", 1)] ["a", "b"]).map
      (fun r => countK "a" r.2.2) = some 1 := by
  refine ⟨?_, rfl, rfl, rfl, rfl⟩
  intro V P truthy fuel reg k p c tr res c' tr' h
  constructor
  · intro k0 hk0
    exact get_mono truthy fuel reg k p c tr res c' tr' h k0 hk0
  · intro k0 w hw htw
    have hf := get_frame truthy k0 w htw fuel reg k p c tr res c' tr' h hw
    exact ⟨hf.1, hf.2.1⟩

/-- Witness for `C6_amended_failure_keeps_cache_truthy_deps_not_reinvoked`,
applying its general part to the concrete failing run. -/
theorem C6_amended_witness :
    containsKey [(("a" : String), (1 : Int)), ("a", 1), ("a", 1)] "a" = true := by
  have h := (C6_amended_failure_keeps_cache_truthy_deps_not_reinvoked.1 truthyInt 5
      regFailTruthy "c" 0 [("a", 1), ("a", 1)] ["a", "b"]
      (.error (.thrown "boom")) [("a", 1), ("a", 1), ("a", 1)] ["a", "b", "b"] rfl).1
  exact h "a" rfl

/-- **C7** — in the async evaluator, dependencies are resolved strictly
sequentially in declared order: for the spec's graph (`first` and `second`
independent, `combined` depending on `["first", "second"]`), whatever the
three compute functions and the truthiness function, resolving `combined`
produces the invocation trace `first`, then `second`, then `combined` —
`first`'s function has run to completion (its result is already cached)
before `second`'s is invoked, and the result is a fixed value of a
deterministic function, hence identical across runs. -/
theorem C7_async_deps_resolved_in_declared_order {V P : Type} (truthy : V → Bool)
    (p : P) (f1 f2 fc : P → Cache V → V) :
    (CogniAsync.get truthy 3 (regFirstSecond f1 f2 fc) "combined" p [] []).map
      (fun r => r.2.2) = some ["first", "second", "combined"] :=
  rfl

/-- Witness for `C7_async_deps_resolved_in_declared_order` at concrete
compute functions. -/
theorem C7_witness :
    (CogniAsync.get truthyInt 3 (regFirstSecond (fun _ _ => (10 : Int)) (fun _ _ => 20)
        (fun _ c => (lookupA c "first").getD 0 + (lookupA c "second").getD 0))
      "combined" (0 : Int) [] []).map (fun r => r.2.2)
      = some ["first", "second", "combined"] :=
  C7_async_deps_resolved_in_declared_order truthyInt 0 (fun _ _ => 10) (fun _ _ => 20)
    (fun _ c => (lookupA c "first").getD 0 + (lookupA c "second").getD 0)

/-- **C8, counterexample** — the claim says the error delivered to the
top-level caller names both the failing dependency key and the top-level
key being resolved.  False for a top-level `get`: only the resolver wraps,
so `get("combined")` (where dependency `first` throws `boom`) delivers
`Failed to resolve dependencies for key "first": …`, which names `first`
but not the top-level key `combined`. -/
theorem C8_cex_toplevel_get_error_lacks_toplevel_key :
    (CogniAsync.get truthyInt 5 regAsyncFail "combined" 0 [] []).map (fun r => r.1)
      = some (.error (.failedResolve "first" (.thrown "boom")))
  ∧ mentionsKey (.failedResolve "first" (.thrown "boom")) "first" = true
  ∧ mentionsKey (.failedResolve "first" (.thrown "boom")) "combined" = false :=
  ⟨rfl, rfl, rfl⟩

/-- **C8, amended** — every error the async dependency resolver delivers is a
`failedResolve` wrap naming the failing dependency key (one of the keys it
was resolving); nested resolution levels add one wrap per level, so a
top-level `getMany` call additionally wraps with its own requested key —
`getMany(["combined"])` delivers an error naming both `combined` and
`first` — but a top-level `get` call does not add its own key (see the
counterexample). -/
theorem C8_amended_resolver_wraps_failing_dep_key :
    (∀ {V : Type} (truthy : V → Bool)
        (g : String → Cache V → List String → Option (Except EvalErr V × Cache V × List String))
        (ks : List String) (c : Cache V) (tr : List String) e c' tr',
        CogniAsync.resolverF truthy g ks c tr = some (.error e, c', tr') →
        ∃ k ∈ ks, ∃ e0, e = .failedResolve k e0 ∧ mentionsKey e k = true)
  ∧ (CogniAsync.getMany truthyInt 5 regAsyncFail ["combined"] 0 [] []).map (fun r => r.1)
      = some (.error (.failedResolve "combined" (.failedResolve "first" (.thrown "boom"))))
  ∧ mentionsKey (.failedResolve "combined" (.failedResolve "first" (.thrown "boom")))
      "combined" = true
  ∧ mentionsKey (.failedResolve "combined" (.failedResolve "first" (.thrown "boom")))
      "first" = true := by
  refine ⟨?_, rfl, rfl, rfl⟩
  intro V truthy g ks c tr e c' tr' h
  obtain ⟨k, hk, e0, he0⟩ := resolverF_error_shape truthy ks c tr e c' tr' h
  refine ⟨k, hk, e0, he0, ?_⟩
  subst he0
  simp [mentionsKey]

/-- Witness for `C8_amended_resolver_wraps_failing_dep_key`, applying its
general part to the concrete failing resolver run. -/
theorem C8_amended_witness :
    ∃ k ∈ (["first", "second"] : List String), ∃ e0,
      (EvalErr.failedResolve "first" (.thrown "boom")) = .failedResolve k e0
      ∧ mentionsKey (.failedResolve "first" (.thrown "boom")) k = true := by
  exact C8_amended_resolver_wraps_failing_dep_key.1 truthyInt
    (fun k c t => CogniAsync.get truthyInt 4 regAsyncFail k 0 c t)
    ["first", "second"] [] [] _ [] ["first"] rfl

/-- **C9** — for every registry built by a sequence of successful `define`
calls: each node's declared dependencies have strictly smaller
definition-time rank (they were defined strictly earlier); no key depends
on itself directly or transitively; and every `get`/`getMany` evaluation,
in the synchronous and the asynchronous evaluator alike, terminates within
nesting depth `reg.length + 1` (the rank strictly decreases along
dependency edges, so the needed fuel is bounded by the longest dependency
chain, which is at most the registry size). -/
theorem C9_define_order_gives_acyclicity_and_termination {V P : Type}
    (truthy : V → Bool) (ops : List (DefOp V P)) (reg : Registry V P)
    (h : buildRegistry ops = .ok reg) :
    (∀ a node ds d, lookupA reg a = some node → node.deps = some ds → d ∈ ds →
        rank reg d < rank reg a)
  ∧ (∀ k, ¬ Relation.TransGen (dependsOn reg) k k)
  ∧ (∀ (k : String) (p : P) (c : Cache V) (tr : List String),
        (get truthy (reg.length + 1) reg k p c tr).isSome = true)
  ∧ (∀ (ks : List String) (p : P) (c : Cache V) (tr : List String),
        (getMany truthy (reg.length + 1) reg ks p c tr).isSome = true)
  ∧ (∀ (k : String) (p : P) (c : Cache V) (tr : List String),
        (CogniAsync.get truthy (reg.length + 1) reg k p c tr).isSome = true)
  ∧ (∀ (ks : List String) (p : P) (c : Cache V) (tr : List String),
        (CogniAsync.getMany truthy (reg.length + 1) reg ks p c tr).isSome = true) := by
  have hwf := buildRegistry_wf h
  refine ⟨wf_rank_lt hwf, ?_, ?_, ?_, ?_, ?_⟩
  · intro k hk
    exact absurd (transGen_rank_lt hwf hk) (Nat.lt_irrefl _)
  · intro k p c tr
    refine get_isSome truthy hwf (reg.length + 1) k ?_ p c tr
    have := rank_le_length reg k
    omega
  · intro ks p c tr
    unfold getMany
    refine getManyF_isSome ks (fun k hk c tr => ?_) c tr
    refine get_isSome truthy hwf (reg.length + 1) k ?_ p c tr
    have := rank_le_length reg k
    omega
  · intro k p c tr
    refine aget_isSome truthy hwf (reg.length + 1) k ?_ p c tr
    have := rank_le_length reg k
    omega
  · intro ks p c tr
    unfold CogniAsync.getMany
    refine resolverF_isSome truthy ks (fun k hk c tr => ?_) c tr
    refine aget_isSome truthy hwf (reg.length + 1) k ?_ p c tr
    have := rank_le_length reg k
    omega

/-- Witness for `C9_define_order_gives_acyclicity_and_termination` on the
concrete three-node `define` sequence `p`, `c1`, `r`. -/
theorem C9_witness :
    (get truthyInt 4 regChain "r" 3 [] []).isSome = true := by
  have h := C9_define_order_gives_acyclicity_and_termination truthyInt opsChain regChain rfl
  exact h.2.2.1 "r" 3 [] []

/-- **C10** — in both evaluators the caller-supplied results object is
mutated in place and `getMany` returns that very object; in this embedding
the single threaded cache state renders the aliasing, and the observable
consequences are proved: (1) generally, every entry of the supplied cache
is still present in the bag `getMany` returns (the bag *is* the cache, so
it keeps entries having nothing to do with the requested keys); (2) a
compute function receives the live shared cache as its `parents` argument,
so `snoop` — which declares only `a` — reads the pre-seeded entry
`unrelated ↦ 7` out of its `parents` and returns it, in the sync and the
async evaluator alike; (3) concretely, the returned bag holds the seeded
entry and the intermediate dependency entry alongside the requested key. -/
theorem C10_shared_live_cache_observed_by_compute_functions :
    (∀ {V P : Type} (truthy : V → Bool) (fuel : Nat) (reg : Registry V P) keys p
        (c : Cache V) tr r bag tr',
        getMany truthy fuel reg keys p c tr = some (r, bag, tr') →
        ∀ k0, containsKey c k0 = true → containsKey bag k0 = true)
  ∧ get truthyInt 5 regSnoop "snoop" 0 [("unrelated", 7)] []
      = some (.ok 7, [("snoop", 7), ("a", 5), ("a", 5), ("unrelated", 7)], ["a", "snoop"])
  ∧ CogniAsync.get truthyInt 5 regSnoop "snoop" 0 [("unrelated", 7)] []
      = some (.ok 7, [("snoop", 7), ("a", 5), ("a", 5), ("unrelated", 7)], ["a", "snoop"])
  ∧ (getMany truthyInt 5 regParentChild ["child"] 0 [("seeded", 9)] []).map
      (fun r => (containsKey r.2.1 "seeded", containsKey r.2.1 "parent",
        containsKey r.2.1 "child")) = some (true, true, true) := by
  refine ⟨?_, rfl, rfl, rfl⟩
  intro V P truthy fuel reg keys p c tr r bag tr' h k0 hk0
  unfold getMany at h
  exact getManyF_mono
    (fun k c tr r c' tr' hh => get_mono truthy fuel reg k p c tr r c' tr' hh)
    keys c tr r bag tr' h k0 hk0

/-- Witness for `C10_shared_live_cache_observed_by_compute_functions`,
applying its general part to the concrete seeded run. -/
theorem C10_witness :
    containsKey [(("child" : String), (2 : Int)), ("child", 2), ("parent", 1), ("parent", 1),
      ("seeded", 9)] "seeded" = true := by
  have h := C10_shared_live_cache_observed_by_compute_functions.1 truthyInt 5 regParentChild
    ["child"] 0 [("seeded", 9)] [] (.ok ())
    [("child", 2), ("child", 2), ("parent", 1), ("parent", 1), ("seeded", 9)]
    ["parent", "child"] rfl
  exact h "seeded" rfl

end Cogni
